import Mathlib

/-!
Verification of the mhg_dl_rs chapter-unpacking and download pipeline.

Shallow embedding of `src/main.rs`: the pure computational core
(`encode`, `unpack_packed`, `parse_id`, filename sanitization, the
archive sort key of `compress_chapter`) is translated directly; the
effectful download loop `download_images` is embedded as a pure
function producing the list of filesystem/network events it performs.

Modelling conventions:
- Rust `usize` is `Nat`; `str::parse::<usize>` checks the value against
  `2 ^ 64 - 1` explicitly (64-bit target assumed).
- `Result<T, AppError>` becomes `Except AppErr T`.
- Regexes are embedded by their matching semantics on the ASCII,
  newline-free strings this program feeds them; the regex class `\w`
  is modelled as ASCII alphanumeric or underscore.
-/

namespace MhgDl

instance {ε α : Type} [DecidableEq ε] [DecidableEq α] :
    DecidableEq (Except ε α) := fun x y =>
  match x, y with
  | .ok a, .ok b =>
    if h : a = b then .isTrue (by rw [h]) else .isFalse (by intro hc; cases hc; exact h rfl)
  | .error a, .error b =>
    if h : a = b then .isTrue (by rw [h]) else .isFalse (by intro hc; cases hc; exact h rfl)
  | .ok _, .error _ => .isFalse (by intro hc; cases hc)
  | .error _, .ok _ => .isFalse (by intro hc; cases hc)

/-- The `AppError` variants reachable from the embedded code paths
(`InvalidUrl`, `ContentParsing`, `Io`, `SerdeJson`); the carried
payload is the formatted message. -/
inductive AppErr where
  | invalidUrl
  | contentParsing (msg : String)
  | ioErr (msg : String)
  | serdeJson (msg : String)
deriving DecidableEq, Repr

/-- The 62-symbol alphabet of `encode` in `main.rs`
(`"0123456789abcdefghijklmnopqrstuvwxyzABCDEFGHIJKLMNOPQRSTUVWXYZ"`). -/
def DIGITS : List Char :=
  "0123456789abcdefghijklmnopqrstuvwxyzABCDEFGHIJKLMNOPQRSTUVWXYZ".data

/-- Model of `DIGITS.chars().nth(n)` from `encode`; the Rust `unwrap` never fires
because every call site has `n < base <= 62`. -/
def digitChar (n : Nat) : Char := DIGITS.getD n '*'

/-- The `AppError::ContentParsing` value produced by `encode` when the
radix exceeds the 62-symbol alphabet of `DIGITS`. -/
def baseOverflowErr (base : Nat) : AppErr :=
  .contentParsing ("Base " ++ toString base ++
    " exceeds supported alphabet size (max 62)")

/-- The `while value > 0` loop of `encode`, which repeatedly prepends
`DIGITS[value % base]` and divides `value` by `base`.  The loop is
embedded with an explicit iteration bound (`fuel`); for `base >= 2` the
loop runs at most `value` times, so `fuel = value` is exact.  (For
`base <= 1` the Rust loop never terminates / divides by zero; no
embedded call site reaches that case.) -/
def encodeLoop : Nat → Nat → Nat → List Char
  | 0, _, _ => []
  | fuel + 1, value, base =>
    if value = 0 then []
    else encodeLoop fuel (value / base) base ++ [digitChar (value % base)]

/-- Function `encode(value, base)` from `unpack_packed` in `main.rs`: rejects
`base > 62`, returns `"0"` for value zero, and otherwise the base-`base`
positional representation over `DIGITS`. -/
def encode (value base : Nat) : Except AppErr String :=
  if 62 < base then .error (baseOverflowErr base)
  else if value = 0 then .ok "0"
  else .ok ⟨encodeLoop value value base⟩

/-- The 36 standard base-36 digit symbols `0-9a-z`. -/
def base36Digit (n : Nat) : Char :=
  "0123456789abcdefghijklmnopqrstuvwxyz".data.getD n '*'

/-- Modelled from the spec (section 4.1), for comparison with `encode`:
the single least-significant symbol of the spec's mixed-radix scheme —
for `j <= 35` the standard base-36 digit of `j`, otherwise the extended
symbol `chr(j % a + 29)`. -/
def specSymbol (a j : Nat) : Char :=
  if j ≤ 35 then base36Digit j else Char.ofNat (j % a + 29)

/-- Modelled from the spec (section 4.1), for comparison with `encode`:
the full mixed-radix key of index `i` under radix `a` — for `i < a` the
single symbol `specSymbol a i`; for `i >= a` the recursive encoding of
`i / a` concatenated with the least-significant symbol computed the
same way.  (The `a <= 1` disjunct only forces termination; the spec
fixes `a > 1`.) -/
def specEncode (a i : Nat) : String :=
  if h : i < a ∨ a ≤ 1 then ⟨[specSymbol a i]⟩
  else ⟨(specEncode a (i / a)).data ++ [specSymbol a (i % a)]⟩
termination_by i
decreasing_by
  push_neg at h
  exact Nat.div_lt_self (by omega) (by omega)

/-- Model of `HashMap::insert` on the association-list model of `dmap`: the new
binding shadows any previous binding of the same key. -/
def dinsert (k v : String) (l : List (String × String)) :
    List (String × String) :=
  (k, v) :: l.filter (fun p => p.1 ≠ k)

/-- Model of `HashMap::get` on the association-list model of `dmap`. -/
def dlookup (l : List (String × String)) (k : String) : Option String :=
  (l.find? (fun p => p.1 = k)).map (·.2)

/-- The `for i in (0..c).rev()` loop of `unpack_packed`: the argument
`n` is the number of remaining iterations, so the first step processes
index `n - 1` and the last processes index `0`.  An empty payload entry
means the key is its own value. -/
def buildDictIter (a : Nat) (data : List String) :
    Nat → List (String × String) → Except AppErr (List (String × String))
  | 0, m => .ok m
  | i + 1, m =>
    match encode i a with
    | .error e => .error e
    | .ok key =>
      let val := if (data.getD i "").isEmpty then key else data.getD i ""
      buildDictIter a data i (dinsert key val m)

/-- The regex class `\w` of `RE_WORD`, restricted to the ASCII inputs
this program feeds it: letters, digits, underscore. -/
def isWordChar (c : Char) : Bool := c.isAlphanum || c = '_'

/-- Accumulating splitter: `p` is the word-ness of the run being
collected and `cur` that run reversed; a character of different
word-ness closes the run and opens a new one. -/
def tokenizeGo (p : Bool) (cur : List Char) : List Char → List (List Char)
  | [] => [cur.reverse]
  | c :: cs =>
    if isWordChar c = p then tokenizeGo p (c :: cur) cs
    else cur.reverse :: tokenizeGo (isWordChar c) [c] cs

/-- Splits a character list into its maximal runs of word characters
and non-word characters — exactly the segmentation that
`RE_WORD.replace_all` (pattern `\b\w+\b`) acts on: every match of that
pattern is a maximal run of `\w` characters. -/
def tokenize : List Char → List (List Char)
  | [] => []
  | c :: cs => tokenizeGo (isWordChar c) [c] cs

/-- The replacement closure of `unpack_packed`: a run of word
characters is replaced by its dictionary value
(`dmap.get(key).cloned().unwrap_or_else(|| key.to_string())`);
a run of non-word characters is left untouched by `replace_all`. -/
def replaceRun (d : List (String × String)) (run : List Char) : List Char :=
  if run.any isWordChar then ((dlookup d ⟨run⟩).getD ⟨run⟩).data else run

/-- Model of `RE_WORD.replace_all(frame, ...)` from `unpack_packed`: every
maximal word-character run is replaced through the dictionary, all
other characters are kept. -/
def substituteWords (d : List (String × String)) (s : String) : String :=
  ⟨(List.map (replaceRun d) (tokenize s.data)).flatten⟩

/-- Whether position `q` can end the captured group of `RE_JSON`
(pattern `.*\((\{.*\})\).*`): a `}` immediately followed by `)`. -/
def jsonCloseAt (cs : List Char) (q : Nat) : Bool :=
  q + 1 < cs.length && cs.getD q ' ' = '}' && cs.getD (q + 1) ' ' = ')'

/-- Whether position `p` can start the match of `RE_JSON`'s
parenthesized group: `(` immediately followed by `{`, with some
admissible closer strictly inside the rest of the string. -/
def jsonOpenAt (cs : List Char) (p : Nat) : Bool :=
  p + 1 < cs.length && cs.getD p ' ' = '(' && cs.getD (p + 1) ' ' = '{' &&
    (List.range cs.length).any (fun q => p + 2 ≤ q && jsonCloseAt cs q)

/-- The last position below `n` satisfying `f`, or `none`. -/
def lastIdxWhere (f : Nat → Bool) (n : Nat) : Option Nat :=
  (List.range n).reverse.find? f

/-- Model of `RE_JSON.captures(&js)` followed by `caps.get(1)`: the pattern
`.*\((\{.*\})\).*` with greedy `.*` finds the last `(` followed by `{`,
and within it the last `}` followed by `)`; the capture is the
brace-delimited span between them (braces included).  Embedded for
newline-free inputs, which is all this program produces (`frame` is
captured by a `.`-based regex that cannot span lines). -/
def extractJson (s : String) : Option String :=
  let cs := s.data
  match lastIdxWhere (jsonOpenAt cs) cs.length with
  | none => none
  | some p =>
    match lastIdxWhere (fun q => decide (p + 2 ≤ q) && jsonCloseAt cs q)
        cs.length with
    | none => none
    | some q => some ⟨(cs.drop (p + 1)).take (q - p)⟩

/-- A `serde_json::Value` restricted to what the embedded inputs use:
floating-point numbers are unmodelled (no claim input contains one). -/
inductive JsonVal where
  | null
  | bool (b : Bool)
  | num (n : Int)
  | str (s : String)
  | arr (elems : List JsonVal)
  | obj (fields : List (String × JsonVal))

/-- The longest leading run of ASCII digits. -/
def leadingDigits : List Char → List Char
  | [] => []
  | c :: cs => if c.isDigit then c :: leadingDigits cs else []

/-- Numeric value of a digit string (most significant first). -/
def digitsToNat (cs : List Char) : Nat :=
  cs.foldl (fun acc c => 10 * acc + (c.toNat - 48)) 0

/-- JSON whitespace skipping, as `serde_json` does between tokens. -/
def skipWs : List Char → List Char
  | [] => []
  | c :: cs =>
    if c = ' ' || c = '\t' || c = '\n' || c = '\r' then skipWs cs else c :: cs

/-- Body of a JSON string literal after the opening quote; returns the
decoded content and the characters after the closing quote.  Only the
single-character escapes are modelled (no claim input contains `\u`). -/
def parseStrBody : Nat → List Char → Option (List Char × List Char)
  | 0, _ => none
  | _, [] => none
  | fuel + 1, c :: cs =>
    if c = '"' then some ([], cs)
    else if c = '\\' then
      match cs with
      | [] => none
      | e :: cs2 =>
        let dec : Option Char :=
          if e = '"' then some '"'
          else if e = '\\' then some '\\'
          else if e = '/' then some '/'
          else if e = 'n' then some '\n'
          else if e = 't' then some '\t'
          else if e = 'r' then some '\r'
          else none
        match dec with
        | none => none
        | some d =>
          match parseStrBody fuel cs2 with
          | some (body, rest) => some (d :: body, rest)
          | none => none
    else
      match parseStrBody fuel cs with
      | some (body, rest) => some (c :: body, rest)
      | none => none

/-- A JSON integer literal (digits, no leading zero), as `serde_json`
accepts; a fractional or exponent continuation is unmodelled. -/
def parseNatNum (cs : List Char) : Option (Nat × List Char) :=
  let ds := leadingDigits cs
  if ds.isEmpty then none
  else if ds.headD ' ' = '0' && 1 < ds.length then none
  else
    match cs.drop ds.length with
    | '.' :: _ => none
    | 'e' :: _ => none
    | 'E' :: _ => none
    | rest => some (digitsToNat ds, rest)

mutual

/-- Recursive-descent JSON value parser (the `serde_json` grammar on
the embedded inputs).  `fuel` only bounds recursion; every decrement
accompanies at least one consumed character, so `length + 1` fuel is
always sufficient. -/
def parseJson : Nat → List Char → Option (JsonVal × List Char)
  | 0, _ => none
  | fuel + 1, cs =>
    match skipWs cs with
    | [] => none
    | c :: rest =>
      if c = '"' then
        match parseStrBody (fuel + 1) rest with
        | some (b, r) => some (.str ⟨b⟩, r)
        | none => none
      else if c = '{' then
        match skipWs rest with
        | '}' :: r => some (.obj [], r)
        | r =>
          match parseObjFields fuel r with
          | some (fs, r2) => some (.obj fs, r2)
          | none => none
      else if c = '[' then
        match skipWs rest with
        | ']' :: r => some (.arr [], r)
        | r =>
          match parseArrElems fuel r with
          | some (es, r2) => some (.arr es, r2)
          | none => none
      else if c = 't' then
        match rest with
        | 'r' :: 'u' :: 'e' :: r => some (.bool true, r)
        | _ => none
      else if c = 'f' then
        match rest with
        | 'a' :: 'l' :: 's' :: 'e' :: r => some (.bool false, r)
        | _ => none
      else if c = 'n' then
        match rest with
        | 'u' :: 'l' :: 'l' :: r => some (.null, r)
        | _ => none
      else if c = '-' then
        match parseNatNum rest with
        | some (n, r) => some (.num (-(n : Int)), r)
        | none => none
      else if c.isDigit then
        match parseNatNum (c :: rest) with
        | some (n, r) => some (.num (n : Int), r)
        | none => none
      else none

/-- Comma-separated JSON array elements up to the closing bracket. -/
def parseArrElems : Nat → List Char → Option (List JsonVal × List Char)
  | 0, _ => none
  | fuel + 1, cs =>
    match parseJson fuel cs with
    | none => none
    | some (v, r) =>
      match skipWs r with
      | ',' :: r2 =>
        match parseArrElems fuel r2 with
        | some (vs, r3) => some (v :: vs, r3)
        | none => none
      | ']' :: r2 => some ([v], r2)
      | _ => none

/-- Comma-separated JSON object members up to the closing brace. -/
def parseObjFields : Nat → List Char →
    Option (List (String × JsonVal) × List Char)
  | 0, _ => none
  | fuel + 1, cs =>
    match skipWs cs with
    | '"' :: r =>
      match parseStrBody (fuel + 1) r with
      | none => none
      | some (k, r1) =>
        match skipWs r1 with
        | ':' :: r2 =>
          match parseJson fuel r2 with
          | none => none
          | some (v, r3) =>
            match skipWs r3 with
            | ',' :: r4 =>
              match parseObjFields fuel r4 with
              | some (fs, r5) => some ((⟨k⟩, v) :: fs, r5)
              | none => none
            | '}' :: r4 => some ([(⟨k⟩, v)], r4)
            | _ => none
        | _ => none
    | _ => none

end

/-- Model of `serde_json::from_str` at type `Value`: parse one value and require
only whitespace after it. -/
def parseJsonString (s : String) : Except String JsonVal :=
  match parseJson (s.length + 1) s.data with
  | none => .error "invalid JSON"
  | some (v, rest) =>
    if (skipWs rest).isEmpty then .ok v else .error "trailing characters"

/-- The `Sl` struct of `main.rs`: `e` is an arbitrary
`serde_json::Value`, `m` a string. -/
structure Sl where
  e : JsonVal
  m : String

/-- The `ChapterStruct` struct of `main.rs`. -/
structure ChapterStruct where
  sl : Sl
  path : String
  files : List String

/-- First value bound to key `k` in a parsed JSON object. -/
def getField (fs : List (String × JsonVal)) (k : String) : Option JsonVal :=
  (fs.find? (fun p => p.1 = k)).map (·.2)

/-- Elements of `files` must all be strings (`Vec<String>`). -/
def asStrList : List JsonVal → Option (List String)
  | [] => some []
  | .str s :: vs => (asStrList vs).map (s :: ·)
  | _ => none

/-- The derived `Deserialize` of `ChapterStruct`/`Sl`: requires fields
`sl` (an object with `e` of any JSON type and string `m`), string
`path`, and string-array `files`; unknown fields are ignored (serde
default). -/
def chapterFromJson : JsonVal → Except String ChapterStruct
  | .obj fs =>
    match getField fs "sl" with
    | some (.obj slfs) =>
      match getField slfs "e" with
      | some e =>
        match getField slfs "m" with
        | some (.str m) =>
          match getField fs "path" with
          | some (.str path) =>
            match getField fs "files" with
            | some (.arr elems) =>
              match asStrList elems with
              | some files => .ok ⟨⟨e, m⟩, path, files⟩
              | none => .error "invalid files element"
            | _ => .error "missing or invalid field files"
          | _ => .error "missing or invalid field path"
        | _ => .error "missing or invalid field m"
      | none => .error "missing field e"
    | _ => .error "missing or invalid field sl"
  | _ => .error "expected object"

/-- The part of `unpack_packed` that runs after the dictionary has been
built: word substitution over the frame, `RE_JSON` extraction, and
`serde_json` parsing of the captured span. -/
def unpackWithDict (frame : String) (dmap : List (String × String)) :
    Except AppErr ChapterStruct :=
  let js := substituteWords dmap frame
  match extractJson js with
  | none =>
    .error (.contentParsing "Could not find JSON data in unpacked script.")
  | some jsonStr =>
    match parseJsonString jsonStr with
    | .ok v =>
      match chapterFromJson v with
      | .ok ch => .ok ch
      | .error e => .error (.serdeJson e)
    | .error e => .error (.serdeJson e)

/-- Function `unpack_packed(frame, a, c, data)` from `main.rs`: checks
`c <= data.len()`, builds the token dictionary for indices
`c - 1, ..., 0`, substitutes every maximal word token of `frame`,
extracts the parenthesized JSON object and deserializes it. -/
def unpackPacked (frame : String) (a c : Nat) (data : List String) :
    Except AppErr ChapterStruct :=
  if data.length < c then
    .error (.contentParsing
      ("Packed script dictionary size mismatch: expected " ++ toString c ++
        " words, got " ++ toString data.length))
  else
    match buildDictIter a data c [] with
    | .error e => .error e
    | .ok dmap => unpackWithDict frame dmap

/-- The character class of `RE_ILLEGAL_CHARS` in `main.rs`:
`[\/:*?"<>|]`. -/
def isIllegalChar (c : Char) : Bool :=
  c = '/' || c = ':' || c = '*' || c = '?' || c = '"' ||
    c = '<' || c = '>' || c = '|'

/-- One step of `RE_ILLEGAL_CHARS.replace_all(s, "_")`: each match is a
single character, replaced by `_`. -/
def sanitizeChar (c : Char) : Char := if isIllegalChar c then '_' else c

/-- Model of `RE_ILLEGAL_CHARS.replace_all(s, "_")` as used on the comic title
and chapter names in `download_chapter`. -/
def sanitizeName (s : String) : String := ⟨s.data.map sanitizeChar⟩

/-- Value of `usize::MAX` on the 64-bit targets this program builds for. -/
def USIZE_MAX : Nat := 2 ^ 64 - 1

/-- Model of `str::parse::<usize>()`: an optional `+` sign, then one or more
ASCII digits, and the value must fit in `usize`. -/
def parseUsize (s : String) : Option Nat :=
  let cs := match s.data with
    | '+' :: r => r
    | r => r
  if cs.isEmpty then none
  else if cs.all Char.isDigit then
    if digitsToNat cs ≤ USIZE_MAX then some (digitsToNat cs) else none
  else none

/-- Model of `s.split('_').next()` from the sort key of `compress_chapter`: the
characters before the first underscore (the whole string if none). -/
def firstSegment : List Char → List Char
  | [] => []
  | c :: cs => if c = '_' then [] else c :: firstSegment cs

/-- The sort key of `compress_chapter`: the numeric value of the
leading `<i>_` index of the staged file name, or `usize::MAX` when
that segment does not parse. -/
def sortKey (name : String) : Nat :=
  (parseUsize ⟨firstSegment name.data⟩).getD USIZE_MAX

/-- Stable insertion for `sortByKeyNumeric`: the inserted element
(which precedes the already-sorted rest in the original list) goes
before the first element whose key is greater or equal, preserving
encounter order among equal keys as Rust's stable `sort_by_key`
does. -/
def insertByKey (x : String) : List String → List String
  | [] => [x]
  | y :: ys =>
    if sortKey x ≤ sortKey y then x :: y :: ys else y :: insertByKey x ys

/-- Model of `files.sort_by_key(...)` from `compress_chapter` (a stable sort by
`sortKey`), i.e. the member order in which the archive is written. -/
def sortByKeyNumeric : List String → List String
  | [] => []
  | x :: xs => insertByKey x (sortByKeyNumeric xs)

/-- Scheme stripping (`http` or `https`) for `RE_ID`: the regex prefix
`https?://` (the greedy `s?` tries `https://` first). -/
def stripPrefixL : List Char → List Char → Option (List Char)
  | [], s => some s
  | _ :: _, [] => none
  | p :: ps, c :: cs => if p = c then stripPrefixL ps cs else none

/-- Remainder of the input after `https?://`, if that prefix is
present. -/
def stripScheme (cs : List Char) : Option (List Char) :=
  match stripPrefixL "https://".data cs with
  | some r => some r
  | none => stripPrefixL "http://".data cs

/-- The regex class `[\w\.]` of `RE_ID`'s optional subdomain group. -/
def isWordDotChar (c : Char) : Bool := isWordChar c || c = '.'

/-- The literal host-and-path part of `RE_ID`. -/
def MANHUAGUI : List Char := "manhuagui.com/comic/".data

/-- The digits captured by `RE_ID` when its optional URL group
participates: after `https?://`, the regex tries every split
`r = m ++ "manhuagui.com/comic/" ++ t` where `m` is empty (`j = 0`) or
the subdomain group `[\w\.]+\.` — at least one word-or-dot character
followed by a final dot, so `m` has length `j >= 2` with `r[j-1] = '.'`
and word-or-dot characters throughout (longest `m` first, per greedy
backtracking) — and succeeds on the first split where `t` starts with
a digit; the capture is the maximal digit run of `t`. -/
def urlDigits (cs : List Char) : Option (List Char) :=
  match stripScheme cs with
  | none => none
  | some r =>
    (List.range (r.length + 1)).reverse.findSome? (fun j =>
      if (r.take j).all isWordDotChar &&
          (decide (j = 0) ||
            (decide (2 ≤ j) && decide (r.getD (j - 1) ' ' = '.'))) then
        match stripPrefixL MANHUAGUI (r.drop j) with
        | some t =>
          if (leadingDigits t).isEmpty then none else some (leadingDigits t)
        | none => none
      else none)

/-- Function `parse_id(s)` from `main.rs`: `RE_ID.captures(s)` (pattern
`^(?:https?://(?:[\w\.]+\.)?manhuagui\.com/comic/)?(\d+)`, anchored at
the start, no end anchor) followed by `parse::<usize>()` on capture
group 1.  If the optional URL prefix cannot be completed with at least
one digit the group is dropped and `\d+` must match at position 0. -/
def parseId (s : String) : Option Nat :=
  match urlDigits s.data with
  | some ds => parseUsize ⟨ds⟩
  | none => parseUsize ⟨leadingDigits s.data⟩

/-- Wrapper used by `main` around `parse_id`:
`parse_id(&args.url).ok_or(AppError::InvalidUrl)?`. -/
def mainResolveId (s : String) : Except AppErr Nat :=
  match parseId s with
  | some id => .ok id
  | none => .error .invalidUrl

/-- Observable actions of one run of `download_images`, in program
order.  `skipExisting i` is the `dst.exists()` short-circuit;
`httpGet i` the image request; `writePart i b` is
`File::create(&dst_part)` plus `io::copy` writing `b` bytes to the
`.part` sibling; `renameToFinal i` is `fs::rename(&dst_part, &dst)`;
`sleepJitter lo hi` is `thread::sleep(rng.random_range(lo..=hi))`, a
duration drawn from the inclusive range `[lo, hi]`. -/
inductive DlEvent where
  | skipExisting (i : Nat)
  | httpGet (i : Nat)
  | writePart (i : Nat) (bytes : Nat)
  | renameToFinal (i : Nat)
  | sleepJitter (lo hi : Nat)
deriving DecidableEq, Repr

/-- One HTTP image response as `download_images` observes it:
success-ness of the status, declared `Content-Length` (if any), and the
number of body bytes `io::copy` ends up writing. -/
structure ImgResp where
  success : Bool
  contentLength : Option Nat
  bytes : Nat
deriving DecidableEq, Repr

/-- Rendering of `sl.e` to the query parameter string: `String` values
pass through, `Number` values via `to_string()`, anything else is the
`ContentParsing` error raised inside the loop. -/
def eStr : JsonVal → Option String
  | .str s => some s
  | .num n => some (toString n)
  | _ => none

/-- The `if bytes_written != expected` test of `download_images`,
applied only when a content length is declared. -/
def lengthMismatch (r : ImgResp) : Bool :=
  match r.contentLength with
  | some expected => r.bytes != expected
  | none => false

/-- The `AppError::Io(UnexpectedEof)` value `download_images` returns
on a byte-count mismatch. -/
def incompleteMsgErr (expected got : Nat) : AppErr :=
  .ioErr ("Incomplete download: expected " ++ toString expected ++
    " bytes, got " ++ toString got)

/-- The `for (i, file) in chap.files.iter().enumerate()` loop of
`download_images`, from index `i` on.  Destination existence and the
network are environment parameters (`existing`, `resp`), keyed by the
file index; `delay` is `self.delay` in nanoseconds (Rust `Duration`
arithmetic on whole milliseconds is exact in nanoseconds).  Returns
the events performed and the error that aborted the loop, if any. -/
def dlGo (e : JsonVal) (existing : Nat → Bool) (resp : Nat → ImgResp)
    (delay : Nat) : Nat → List String → List DlEvent × Option AppErr
  | _, [] => ([], none)
  | i, _file :: rest =>
    if existing i then
      let r := dlGo e existing resp delay (i + 1) rest
      (DlEvent.skipExisting i :: r.1, r.2)
    else
      match eStr e with
      | none => ([], some (.contentParsing "sl.e is not a string or number"))
      | some _ =>
        let rsp := resp i
        if rsp.success = false then
          ([DlEvent.httpGet i],
           some (.contentParsing "Failed to download image: HTTP error"))
        else if lengthMismatch rsp then
          ([DlEvent.httpGet i, DlEvent.writePart i rsp.bytes],
           some (incompleteMsgErr (rsp.contentLength.getD 0) rsp.bytes))
        else
          let r := dlGo e existing resp delay (i + 1) rest
          (DlEvent.httpGet i :: DlEvent.writePart i rsp.bytes ::
            DlEvent.renameToFinal i ::
            DlEvent.sleepJitter (delay / 2) (delay * 3 / 2) :: r.1,
           r.2)

/-- Function `download_images(chap, dir, bar)` from `main.rs`, as the event
trace over `chap.files` starting at index 0.  `e` is `chap.sl.e`. -/
def downloadImages (e : JsonVal) (files : List String)
    (existing : Nat → Bool) (resp : Nat → ImgResp) (delay : Nat) :
    List DlEvent × Option AppErr :=
  dlGo e existing resp delay 0 files

/-- Whether an event is the jittered sleep. -/
def isSleepEv : DlEvent → Bool
  | .sleepJitter _ _ => true
  | _ => false

/-- Whether an event is the `.part` → final rename. -/
def isRenameEv : DlEvent → Bool
  | .renameToFinal _ => true
  | _ => false

/-- The file index an event refers to (`none` for the sleep). -/
def evIdx : DlEvent → Option Nat
  | .skipExisting i => some i
  | .httpGet i => some i
  | .writePart i _ => some i
  | .renameToFinal i => some i
  | .sleepJitter _ _ => none

theorem sanitizeChar_idem (c : Char) :
    sanitizeChar (sanitizeChar c) = sanitizeChar c := by
  unfold sanitizeChar
  by_cases h : isIllegalChar c = true
  · simp only [h, if_true]
    decide
  · simp only [h]
    simp [h]

theorem isIllegalChar_sanitizeChar (c : Char) :
    isIllegalChar (sanitizeChar c) = false := by
  unfold sanitizeChar
  by_cases h : isIllegalChar c = true
  · simp only [h, if_true]
    decide
  · simp [h]

/-- C6: filename sanitization (replacing every occurrence of
`/ : * ? " < > |` with `_`) is total (a Lean function) and idempotent,
and its output never contains any of those eight characters. -/
theorem sanitizeName_idempotent_and_clean (s : String) :
    sanitizeName (sanitizeName s) = sanitizeName s ∧
      (sanitizeName s).data.all (fun c => !isIllegalChar c) = true := by
  constructor
  · show (⟨(s.data.map sanitizeChar).map sanitizeChar⟩ : String) =
      ⟨s.data.map sanitizeChar⟩
    rw [List.map_map]
    congr 1
    exact List.map_congr_left (fun a _ => sanitizeChar_idem a)
  · rw [List.all_eq_true]
    intro c hc
    have hc2 : c ∈ s.data.map sanitizeChar := hc
    obtain ⟨a, _, rfl⟩ := List.mem_map.mp hc2
    simp [isIllegalChar_sanitizeChar]

theorem digitChar_eq_base36 : ∀ j < 36, digitChar j = base36Digit j := by
  decide

theorem digitChar_eq_ext :
    ∀ j < 62, 35 < j → digitChar j = Char.ofNat (j + 29) := by
  decide

theorem digitChar_eq_specSymbol (a j : Nat) (hj : j < a) (ha : a ≤ 62) :
    digitChar j = specSymbol a j := by
  unfold specSymbol
  by_cases h35 : j ≤ 35
  · rw [if_pos h35]
    exact digitChar_eq_base36 j (by omega)
  · rw [if_neg h35]
    rw [Nat.mod_eq_of_lt hj]
    exact digitChar_eq_ext j (by omega) (by omega)

theorem encodeLoop_zero (fuel base : Nat) : encodeLoop fuel 0 base = [] := by
  cases fuel <;> simp [encodeLoop]

theorem specEncode_base (a i : Nat) (h : i < a ∨ a ≤ 1) :
    specEncode a i = ⟨[specSymbol a i]⟩ := by
  rw [specEncode]
  rw [dif_pos h]

theorem specEncode_step (a i : Nat) (h : ¬(i < a ∨ a ≤ 1)) :
    specEncode a i = ⟨(specEncode a (i / a)).data ++ [specSymbol a (i % a)]⟩ := by
  rw [specEncode]
  rw [dif_neg h]

theorem encodeLoop_eq_specEncode (a : Nat) (ha2 : 1 < a) (ha62 : a ≤ 62) :
    ∀ fuel v, 0 < v → v ≤ fuel → encodeLoop fuel v a = (specEncode a v).data := by
  intro fuel
  induction fuel with
  | zero => intro v hv hle; omega
  | succ n ih =>
    intro v hv hle
    show (if v = 0 then [] else encodeLoop n (v / a) a ++ [digitChar (v % a)]) =
      (specEncode a v).data
    rw [if_neg (by omega)]
    by_cases hva : v < a
    · rw [Nat.div_eq_of_lt hva, encodeLoop_zero, Nat.mod_eq_of_lt hva]
      rw [specEncode_base a v (Or.inl hva)]
      rw [digitChar_eq_specSymbol a v hva ha62]
      rfl
    · have hdpos : 0 < v / a := Nat.div_pos (by omega) (by omega)
      have hdle : v / a ≤ n := by
        have : v / a < v := Nat.div_lt_self hv (by omega)
        omega
      rw [ih (v / a) hdpos hdle]
      rw [specEncode_step a v (by omega)]
      rw [digitChar_eq_specSymbol a (v % a) (Nat.mod_lt v (by omega)) ha62]

/-- C2: for every radix `1 < a <= 62` and every index `i`, the
`encode` function of `unpack_packed` (which builds the token
dictionary keys) produces exactly the spec's mixed-radix key
`specEncode a i`. -/
theorem encode_eq_specEncode (a i : Nat) (ha2 : 1 < a) (ha62 : a ≤ 62) :
    encode i a = .ok (specEncode a i) := by
  unfold encode
  rw [if_neg (by omega)]
  by_cases h0 : i = 0
  · subst h0
    rw [if_pos rfl]
    rw [specEncode_base a 0 (Or.inl (by omega))]
    rfl
  · rw [if_neg h0]
    rw [encodeLoop_eq_specEncode a ha2 ha62 i i (by omega) (Nat.le_refl i)]

/-- Witness for C2 at radix 62 and index 100 (key `"1C"`). -/
theorem encode_eq_specEncode_witness :
    1 < 62 ∧ 62 ≤ 62 ∧ encode 100 62 = .ok (specEncode 62 100) :=
  ⟨by omega, by omega, encode_eq_specEncode 62 100 (by omega) (by omega)⟩

/-- C3: for every radix above 62 and every `dictionary_size >= 1` whose
payload has at least that many entries, `unpack_packed` fails with the
`ContentParsing` error naming the radix (`baseOverflowErr a` spells out
`"Base <a> exceeds supported alphabet size (max 62)"`), raised by the
very first `encode` call — before any word substitution on the body,
which the statement reflects by being independent of `frame`.  The
embedding is total, mirroring that the Rust path returns an `Err`
rather than panicking. -/
theorem unpack_overflow_radix (frame : String) (a c : Nat)
    (data : List String) (ha : 62 < a) (hc : 1 ≤ c)
    (hlen : c ≤ data.length) :
    unpackPacked frame a c data = .error (baseOverflowErr a) := by
  obtain ⟨k, rfl⟩ : ∃ k, c = k + 1 := ⟨c - 1, by omega⟩
  unfold unpackPacked
  rw [if_neg (by omega)]
  have henc : encode k a = .error (baseOverflowErr a) := by
    unfold encode
    rw [if_pos ha]
  unfold buildDictIter
  rw [henc]

/-- Witness for C3 on the concrete inputs of the repository's own
`test_unpack_packed_invalid_base` test. -/
theorem unpack_overflow_radix_witness :
    62 < 100 ∧ 1 ≤ 1 ∧ 1 ≤ (["dummy"] : List String).length ∧
      unpackPacked "\x7b\x7d" 100 1 ["dummy"] = .error (baseOverflowErr 100) :=
  ⟨by omega, by omega, by decide,
    unpack_overflow_radix "\x7b\x7d" 100 1 ["dummy"] (by omega) (by omega)
      (by decide)⟩

/-- A frame whose manifest is already in the clear, used to show a
radix above 62 sailing through `unpack_packed` when
`dictionary_size = 0`. -/
def c10Frame : String :=
  "SMH.imgData(\x7b\"sl\":\x7b\"e\":\"9\",\"m\":\"zz\"\x7d,\"path\":\"/p/\",\"files\":[\"a.jpg\"]\x7d)"

/-- C10: with `dictionary_size = 0` the `(0..c).rev()` loop never runs,
so no `encode` call and hence no radix validation happens: for every
radix — including radices above 62 — `unpack_packed` builds the empty
dictionary and proceeds directly to substitution
(`unpackWithDict frame []`).  Concretely, radix 1000 with an empty
payload unpacks `c10Frame` successfully. -/
theorem unpack_zero_dict_skips_radix_check :
    (∀ (frame : String) (a : Nat) (data : List String),
        unpackPacked frame a 0 data = unpackWithDict frame []) ∧
      unpackPacked c10Frame 1000 0 [] =
        .ok ⟨⟨.str "9", "zz"⟩, "/p/", ["a.jpg"]⟩ := by
  constructor
  · intro frame a data
    unfold unpackPacked
    rw [if_neg (by omega)]
    rfl
  · rfl

/-- The staged file names of C5. -/
def c5Target : List String :=
  ["01_page.jpg", "02_page.jpg", "09_page.jpg", "10_page.jpg"]

/-- C5: `compress_chapter` writes archive members sorted numerically by
the leading `<i>_` index of each staged name: whatever order directory
enumeration returns the four staged files in, the sort places them in
numeric order `01, 02, 09, 10`. -/
theorem compress_numeric_order (l : List String) (h : l.Perm c5Target) :
    sortByKeyNumeric l = c5Target := by
  have hall : ∀ m ∈ c5Target.permutations', sortByKeyNumeric m = c5Target := by
    decide
  exact hall l (List.mem_permutations'.mpr h)

/-- Witness for C5 on an enumeration order that lexicographic-insensitive
sorting would get wrong. -/
theorem compress_numeric_order_witness :
    List.Perm ["10_page.jpg", "01_page.jpg", "09_page.jpg", "02_page.jpg"]
        c5Target ∧
      sortByKeyNumeric
          ["10_page.jpg", "01_page.jpg", "09_page.jpg", "02_page.jpg"] =
        c5Target :=
  ⟨List.mem_permutations'.mp (by decide),
    compress_numeric_order _ (List.mem_permutations'.mp (by decide))⟩

theorem flatten_tokenizeGo (cs : List Char) :
    ∀ (p : Bool) (cur : List Char),
      (tokenizeGo p cur cs).flatten = cur.reverse ++ cs := by
  induction cs with
  | nil => intro p cur; simp [tokenizeGo]
  | cons c cs ih =>
    intro p cur
    unfold tokenizeGo
    by_cases h : isWordChar c = p
    · rw [if_pos h, ih]
      simp
    · rw [if_neg h]
      simp only [List.flatten_cons, ih]
      simp

theorem flatten_tokenize (cs : List Char) : (tokenize cs).flatten = cs := by
  cases cs with
  | nil => rfl
  | cons c cs =>
    unfold tokenize
    rw [flatten_tokenizeGo]
    rfl

theorem getLastD_wordness_tail (x : Char) (u2 : List Char)
    (h : isWordChar ((x :: u2).getLastD '.') = false) :
    isWordChar (u2.getLastD '.') = false := by
  cases u2 with
  | nil => decide
  | cons y u3 => exact h

theorem tokenizeGo_wordRun :
    ∀ (ws cur v : List Char), ws.all isWordChar = true →
      isWordChar (v.headD '.') = false →
      tokenizeGo true cur (ws ++ v) = (cur.reverse ++ ws) :: tokenize v := by
  intro ws
  induction ws with
  | nil =>
    intro cur v _hall hv
    cases v with
    | nil => simp [tokenizeGo, tokenize]
    | cons d v2 =>
      have hd : isWordChar d = false := by simpa using hv
      show tokenizeGo true cur (d :: v2) =
        (cur.reverse ++ []) :: tokenize (d :: v2)
      unfold tokenizeGo
      rw [if_neg (by simp [hd])]
      simp [tokenize]
  | cons x ws2 ih =>
    intro cur v hall hv
    rw [List.all_cons, Bool.and_eq_true] at hall
    obtain ⟨hx, hall2⟩ := hall
    show tokenizeGo true cur (x :: (ws2 ++ v)) = _
    unfold tokenizeGo
    rw [if_pos hx]
    rw [ih (x :: cur) v hall2 hv]
    simp

theorem tokenizeGo_split :
    ∀ (u : List Char) (p : Bool) (cur rest : List Char),
      isWordChar (rest.headD '.') = true →
      (u = [] → p = false) →
      isWordChar (u.getLastD '.') = false →
      tokenizeGo p cur (u ++ rest) = tokenizeGo p cur u ++ tokenize rest := by
  intro u
  induction u with
  | nil =>
    intro p cur rest hrest hp _hlast
    have hp2 : p = false := hp rfl
    subst hp2
    cases rest with
    | nil => cases hrest
    | cons d v =>
      have hd : isWordChar d = true := by simpa using hrest
      show tokenizeGo false cur (d :: v) =
        [cur.reverse] ++ tokenize (d :: v)
      unfold tokenizeGo
      rw [if_neg (by simp [hd])]
      rfl
  | cons x u2 ih =>
    intro p cur rest hrest hp hlast
    have hp1 : u2 = [] → isWordChar x = false := by
      intro h
      subst h
      exact hlast
    have hp2 := getLastD_wordness_tail x u2 hlast
    by_cases hxp : isWordChar x = p
    · show tokenizeGo p cur (x :: (u2 ++ rest)) =
        tokenizeGo p cur (x :: u2) ++ tokenize rest
      unfold tokenizeGo
      rw [if_pos hxp, if_pos hxp]
      apply ih
      · exact hrest
      · intro h
        rw [← hxp]
        exact hp1 h
      · exact hp2
    · show tokenizeGo p cur (x :: (u2 ++ rest)) =
        tokenizeGo p cur (x :: u2) ++ tokenize rest
      unfold tokenizeGo
      rw [if_neg hxp, if_neg hxp]
      rw [ih (isWordChar x) [x] rest hrest hp1 hp2]
      rfl

theorem tokenize_decomp (u w v : List Char) (hw : w ≠ [])
    (hword : w.all isWordChar = true)
    (hu : isWordChar (u.getLastD '.') = false)
    (hv : isWordChar (v.headD '.') = false) :
    tokenize (u ++ w ++ v) = tokenize u ++ w :: tokenize v := by
  cases w with
  | nil => exact absurd rfl hw
  | cons d w2 =>
    rw [List.all_cons, Bool.and_eq_true] at hword
    obtain ⟨hd, hw2⟩ := hword
    have hwv : tokenize ((d :: w2) ++ v) = (d :: w2) :: tokenize v := by
      show tokenizeGo (isWordChar d) [d] (w2 ++ v) = (d :: w2) :: tokenize v
      rw [hd, tokenizeGo_wordRun w2 [d] v hw2 hv]
      rfl
    cases u with
    | nil =>
      show tokenize ((d :: w2) ++ v) = [] ++ (d :: w2) :: tokenize v
      rw [hwv]
      rfl
    | cons c u2 =>
      have hassoc : (c :: u2) ++ (d :: w2) ++ v =
          c :: (u2 ++ ((d :: w2) ++ v)) := by
        simp
      rw [hassoc]
      have hp1 : u2 = [] → isWordChar c = false := by
        intro h
        subst h
        exact hu
      have hp2 := getLastD_wordness_tail c u2 hu
      have hrest : isWordChar (((d :: w2) ++ v).headD '.') = true := hd
      show tokenizeGo (isWordChar c) [c] (u2 ++ ((d :: w2) ++ v)) =
        tokenize (c :: u2) ++ (d :: w2) :: tokenize v
      rw [tokenizeGo_split u2 (isWordChar c) [c] ((d :: w2) ++ v) hrest
        hp1 hp2]
      rw [hwv]
      rfl

theorem replaceRun_nonkey (d : List (String × String)) (w : List Char)
    (hw : w ≠ []) (hword : w.all isWordChar = true)
    (hkey : dlookup d ⟨w⟩ = none) : replaceRun d w = w := by
  unfold replaceRun
  have hany : w.any isWordChar = true := by
    cases w with
    | nil => exact absurd rfl hw
    | cons d2 w2 =>
      rw [List.all_cons, Bool.and_eq_true] at hword
      simp [hword.1]
  rw [if_pos hany, hkey]
  rfl

/-- C9: during word substitution every maximal word token of the body
that is not a key of the dictionary is left unchanged (replaced by
itself via `unwrap_or_else`), even while other tokens are being
rewritten: whenever the body splits as `u ++ w ++ v` with `w` a
nonempty word-character run that is not a dictionary key and with a
non-word character (or the string end) on each side — i.e. `w` is a
maximal word token — the substitution acts independently on `u` and
`v`, which may contain key tokens being rewritten, and reproduces `w`
verbatim between them.  Only tokens equal to some dictionary key can
be rewritten. -/
theorem substituteWords_nonkey_token (d : List (String × String))
    (u w v : List Char) (hw : w ≠ [])
    (hword : w.all isWordChar = true)
    (hkey : dlookup d ⟨w⟩ = none)
    (hu : isWordChar (u.getLastD '.') = false)
    (hv : isWordChar (v.headD '.') = false) :
    substituteWords d ⟨u ++ w ++ v⟩ =
      ⟨(substituteWords d ⟨u⟩).data ++ w ++
        (substituteWords d ⟨v⟩).data⟩ := by
  unfold substituteWords
  show (⟨((tokenize (u ++ w ++ v)).map (replaceRun d)).flatten⟩ : String) = _
  rw [tokenize_decomp u w v hw hword hu hv]
  rw [List.map_append, List.map_cons, List.flatten_append,
    List.flatten_cons]
  rw [replaceRun_nonkey d w hw hword hkey]
  congr 1
  rw [← List.append_assoc]

/-- Witness for C9: with keys `0` and `1`, the body `0.zz.1` rewrites
both keys to `sl` and `e` but reproduces the non-key token `zz`
verbatim between the independently substituted context pieces. -/
theorem substituteWords_nonkey_token_witness :
    substituteWords [("0", "sl"), ("1", "e")]
        ⟨"0.".data ++ "zz".data ++ ".1".data⟩ =
      ⟨(substituteWords [("0", "sl"), ("1", "e")] ⟨"0.".data⟩).data ++
        "zz".data ++
        (substituteWords [("0", "sl"), ("1", "e")] ⟨".1".data⟩).data⟩ ∧
      substituteWords [("0", "sl"), ("1", "e")] "0.zz.1" = "sl.zz.e" :=
  ⟨substituteWords_nonkey_token [("0", "sl"), ("1", "e")] "0.".data
      "zz".data ".1".data (by decide) (by decide) (by decide) (by decide)
      (by decide),
    by decide⟩

/-- Corollary form: if no maximal word token of the body is a key of
the dictionary, the substitution pass of `unpack_packed` returns the
body unchanged — every non-key token is replaced by itself and
non-word runs are never touched, so nothing in the string moves. -/
theorem substituteWords_id_of_no_keys (d : List (String × String))
    (s : String)
    (h : ∀ run ∈ tokenize s.data, run.any isWordChar = true →
      dlookup d ⟨run⟩ = none) :
    substituteWords d s = s := by
  unfold substituteWords
  have hmap : (tokenize s.data).map (replaceRun d) = tokenize s.data := by
    have hid : ∀ run ∈ tokenize s.data, replaceRun d run = run := by
      intro run hr
      unfold replaceRun
      by_cases hw : run.any isWordChar = true
      · rw [if_pos hw, h run hr hw]
        rfl
      · rw [if_neg hw]
    rw [List.map_congr_left hid]
    exact List.map_id' (tokenize s.data)
  rw [hmap, flatten_tokenize]

/-- Instance of the corollary: a dictionary with key `"0"` leaves a
body with tokens `abc`, `.`, `def` — none of them keys — untouched. -/
theorem substituteWords_id_of_no_keys_witness :
    substituteWords [("0", "sl")] "abc.def" = "abc.def" :=
  substituteWords_id_of_no_keys [("0", "sl")] "abc.def" (by decide)

/-- The packed body of C7 (the repository's `test_unpack_packed`). -/
def c7Body : String :=
  "SMH.imgData(\x7b\"0\":\x7b\"1\":\"123\",\"2\":\"abc\"\x7d,\"3\":\"/comic/\",\"4\":[\"01.jpg\"]\x7d)"

/-- The payload entries of C7. -/
def c7Data : List String := ["sl", "e", "m", "path", "files"]

/-- The token dictionary `unpack_packed` builds for C7's inputs. -/
def c7Dict : List (String × String) :=
  [("0", "sl"), ("1", "e"), ("2", "m"), ("3", "path"), ("4", "files")]

/-- C7: unpacking the test body with radix 10 and dictionary size 5
succeeds with `path = "/comic/"`, `files = ["01.jpg"]`, `sl.e` the
string `"123"` and `sl.m = "abc"`; the dictionary built is exactly
`{0 -> sl, 1 -> e, 2 -> m, 3 -> path, 4 -> files}`; substitution
rewrites only the maximal word tokens (`0 -> sl` etc., `123`, `abc`,
`SMH`, `imgData`, `comic`, `01`, `jpg` stay) and leaves every non-word
character of the body in place, as the full substituted string and the
projection to non-word characters show. -/
theorem unpack_c7_manifest :
    unpackPacked c7Body 10 5 c7Data =
        .ok ⟨⟨.str "123", "abc"⟩, "/comic/", ["01.jpg"]⟩ ∧
      buildDictIter 10 c7Data 5 [] = .ok c7Dict ∧
      substituteWords c7Dict c7Body =
        "SMH.imgData(\x7b\"sl\":\x7b\"e\":\"123\",\"m\":\"abc\"\x7d,\"path\":\"/comic/\",\"files\":[\"01.jpg\"]\x7d)" ∧
      (substituteWords c7Dict c7Body).data.filter (fun c => !isWordChar c) =
        c7Body.data.filter (fun c => !isWordChar c) :=
  ⟨rfl, by decide, by decide, by decide⟩

/-- C8 counterexample: `"123abc"` is neither a bare numeric identifier
nor a URL whose path begins `/comic/<digits>`, yet `parse_id` accepts
it — `RE_ID` has no end anchor, so the digit capture `(\d+)` matches
the leading `123` and the trailing `abc` is ignored. -/
theorem parseId_accepts_digit_prefix_cex :
    parseId "123abc" = some 123 ∧ parseId "123abc" ≠ none := by
  constructor
  · decide
  · decide

theorem stripPrefixL_eq_some (p : List Char) :
    ∀ s r, stripPrefixL p s = some r → s = p ++ r := by
  induction p with
  | nil =>
    intro s r h
    cases h
    rfl
  | cons x ps ih =>
    intro s r h
    cases s with
    | nil => cases h
    | cons c cs =>
      unfold stripPrefixL at h
      by_cases hx : x = c
      · rw [if_pos hx] at h
        have := ih cs r h
        rw [this, hx]
        rfl
      · rw [if_neg hx] at h
        cases h

/-- The input grammar of C8's amended claim, written from its words:
`https?://`, then an optional subdomain — a nonempty run of word or
dot characters followed by a dot, so a group of total length
`k >= 2` ending in `.` (`k = 0` when the subdomain is absent) — then
`manhuagui.com/comic/`, then at least one digit. -/
def urlForm (cs : List Char) : Prop :=
  ∃ pre ∈ ["http://".data, "https://".data],
    List.isPrefixOf pre cs = true ∧
    ∃ k ∈ List.range (cs.length + 1),
      (k = 0 ∨ (2 ≤ k ∧
        (((cs.drop pre.length).take (k - 1)).all isWordDotChar = true ∧
          (cs.drop pre.length).getD (k - 1) ' ' = '.'))) ∧
      List.isPrefixOf MANHUAGUI (cs.drop (pre.length + k)) = true ∧
      ((cs.drop (pre.length + k + MANHUAGUI.length)).headD ' ').isDigit = true

instance (cs : List Char) : Decidable (urlForm cs) := by
  unfold urlForm
  infer_instance

theorem parseId_none_of_invalid (s : String)
    (h1 : (s.data.headD ' ').isDigit = false)
    (h2 : ¬ urlForm s.data) : parseId s = none := by
  have hurl : urlDigits s.data = none := by
    cases hu : urlDigits s.data with
    | none => rfl
    | some ds =>
      exfalso
      apply h2
      unfold urlDigits at hu
      cases hss : stripScheme s.data with
      | none =>
        rw [hss] at hu
        cases hu
      | some r =>
        rw [hss] at hu
        obtain ⟨j, hjmem, hfj⟩ := List.exists_of_findSome?_eq_some hu
        rw [List.mem_reverse, List.mem_range] at hjmem
        by_cases hg : ((r.take j).all isWordDotChar &&
            (decide (j = 0) ||
              (decide (2 ≤ j) && decide (r.getD (j - 1) ' ' = '.')))) = true
        case neg =>
          rw [if_neg hg] at hfj
          cases hfj
        rw [if_pos hg] at hfj
        cases hsp : stripPrefixL MANHUAGUI (r.drop j) with
        | none =>
          rw [hsp] at hfj
          cases hfj
        | some t =>
          rw [hsp] at hfj
          have hfj2 : (if (leadingDigits t).isEmpty = true then
              (none : Option (List Char))
            else some (leadingDigits t)) = some ds := hfj
          by_cases hemp : (leadingDigits t).isEmpty = true
          · rw [if_pos hemp] at hfj2
            cases hfj2
          · have hrt : r.drop j = MANHUAGUI ++ t :=
              stripPrefixL_eq_some _ _ _ hsp
            have hpre : ∃ pre ∈ ["http://".data, "https://".data],
                s.data = pre ++ r := by
              unfold stripScheme at hss
              cases hA : stripPrefixL "https://".data s.data with
              | some r2 =>
                rw [hA] at hss
                cases hss
                exact ⟨"https://".data, by simp,
                  stripPrefixL_eq_some _ _ _ hA⟩
              | none =>
                rw [hA] at hss
                exact ⟨"http://".data, by simp,
                  stripPrefixL_eq_some _ _ _ hss⟩
            obtain ⟨pre, hprmem, hseq⟩ := hpre
            have hdropPre : s.data.drop pre.length = r := by
              rw [hseq]
              exact List.drop_left pre r
            have hdj : s.data.drop (pre.length + j) = r.drop j := by
              rw [hseq, ← List.drop_drop, List.drop_left]
            have hdt : s.data.drop (pre.length + j + MANHUAGUI.length) = t := by
              rw [← List.drop_drop, hdj, hrt, List.drop_left]
            simp only [Bool.and_eq_true, Bool.or_eq_true,
              decide_eq_true_eq] at hg
            obtain ⟨hg1, hg2⟩ := hg
            refine ⟨pre, hprmem, ?_, j, ?_, ?_, ?_, ?_⟩
            · rw [List.isPrefixOf_iff_prefix]
              exact ⟨r, hseq.symm⟩
            · rw [List.mem_range, hseq, List.length_append]
              omega
            · rw [hdropPre]
              rcases hg2 with hg2 | ⟨hg2a, hg2b⟩
              · exact Or.inl hg2
              · refine Or.inr ⟨hg2a, ?_, hg2b⟩
                have hsub : (r.take j).take (j - 1) = r.take (j - 1) := by
                  rw [List.take_take]
                  congr 1
                  omega
                rw [List.all_eq_true] at hg1 ⊢
                intro x hx
                apply hg1
                rw [← hsub] at hx
                exact List.take_subset _ _ hx
            · rw [hdj, hrt, List.isPrefixOf_iff_prefix]
              exact ⟨t, rfl⟩
            · rw [hdt]
              cases ht : t with
              | nil =>
                rw [ht] at hemp
                cases hemp rfl
              | cons c t2 =>
                rw [ht] at hemp
                by_cases hc : c.isDigit = true
                · simpa using hc
                · have hc2 : c.isDigit = false := by
                    revert hc
                    cases c.isDigit <;> simp
                  exfalso
                  apply hemp
                  unfold leadingDigits
                  rw [if_neg (by rw [hc2]; intro hk; cases hk)]
                  rfl
  unfold parseId
  rw [hurl]
  have hld : leadingDigits s.data = [] := by
    cases hs : s.data with
    | nil => rfl
    | cons c cs =>
      unfold leadingDigits
      rw [hs] at h1
      simp only [List.headD_cons] at h1
      rw [if_neg (by rw [h1]; intro hc; cases hc)]
  rw [hld]
  rfl

/-- C8, amended: `parse_id` extracts the leading digits of the input —
either digits at the very start of the string, or digits right after a
`https?://(<nonempty subdomain>.)?manhuagui.com/comic/` URL prefix —
parses them as a `usize`, and ignores everything after them; for every
input of neither form (no leading digit and no such URL prefix,
`urlForm`) it returns `none`, which `main` maps to
`AppError::InvalidUrl`.  Concrete instances include the repository
test's accepted and rejected inputs, a bare-dot subdomain (rejected:
`[\w\.]+\.` needs a nonempty subdomain before the final dot), and an
http-prefixed non-manhuagui URL. -/
theorem parseId_amended :
    parseId "123" = some 123 ∧
      parseId "123abc" = some 123 ∧
      parseId "https://www.manhuagui.com/comic/456" = some 456 ∧
      parseId "https://tw.manhuagui.com/comic/789/extra.html" = some 789 ∧
      parseId "http://manhuagui.com/comic/12" = some 12 ∧
      parseId "https://google.com/comic/12345" = none ∧
      parseId "https://.manhuagui.com/comic/5" = none ∧
      (∀ s : String, (s.data.headD ' ').isDigit = false → ¬ urlForm s.data →
        parseId s = none) ∧
      (∀ s : String, parseId s = none →
        mainResolveId s = .error .invalidUrl) := by
  refine ⟨by decide, by decide, by decide, by decide, by decide, by decide,
    by decide, parseId_none_of_invalid, ?_⟩
  intro s h
  unfold mainResolveId
  rw [h]

/-- Witness for C8's amended theorem at `"abcde"` (from the
repository's `test_parse_id`) and at an http-prefixed non-manhuagui
URL. -/
theorem parseId_amended_witness :
    parseId "abcde" = none ∧ parseId "http://example.com/x" = none ∧
      mainResolveId "abcde" = .error .invalidUrl :=
  ⟨parseId_amended.2.2.2.2.2.2.2.1 "abcde" (by decide) (by decide),
    parseId_amended.2.2.2.2.2.2.2.1 "http://example.com/x" (by decide)
      (by decide),
    parseId_amended.2.2.2.2.2.2.2.2 "abcde"
      (parseId_amended.2.2.2.2.2.2.2.1 "abcde" (by decide) (by decide))⟩

theorem dlGo_skip (e : JsonVal) (existing : Nat → Bool)
    (resp : Nat → ImgResp) (delay i : Nat) (f : String)
    (rest : List String) (hex : existing i = true) :
    dlGo e existing resp delay i (f :: rest) =
      (DlEvent.skipExisting i :: (dlGo e existing resp delay (i + 1) rest).1,
        (dlGo e existing resp delay (i + 1) rest).2) := by
  simp [dlGo, hex]

theorem dlGo_badE (e : JsonVal) (existing : Nat → Bool)
    (resp : Nat → ImgResp) (delay i : Nat) (f : String)
    (rest : List String) (hex : existing i = false) (he : eStr e = none) :
    dlGo e existing resp delay i (f :: rest) =
      ([], some (.contentParsing "sl.e is not a string or number")) := by
  simp [dlGo, hex, he]

theorem dlGo_httpFail (e : JsonVal) (existing : Nat → Bool)
    (resp : Nat → ImgResp) (delay i : Nat) (f : String)
    (rest : List String) (s : String) (hex : existing i = false)
    (he : eStr e = some s) (hf : (resp i).success = false) :
    dlGo e existing resp delay i (f :: rest) =
      ([DlEvent.httpGet i],
        some (.contentParsing "Failed to download image: HTTP error")) := by
  simp [dlGo, hex, he, hf]

theorem dlGo_mismatch (e : JsonVal) (existing : Nat → Bool)
    (resp : Nat → ImgResp) (delay i : Nat) (f : String)
    (rest : List String) (s : String) (hex : existing i = false)
    (he : eStr e = some s) (hs : (resp i).success = true)
    (hm : lengthMismatch (resp i) = true) :
    dlGo e existing resp delay i (f :: rest) =
      ([DlEvent.httpGet i, DlEvent.writePart i (resp i).bytes],
        some (incompleteMsgErr ((resp i).contentLength.getD 0)
          (resp i).bytes)) := by
  simp [dlGo, hex, he, hs, hm]

theorem dlGo_success (e : JsonVal) (existing : Nat → Bool)
    (resp : Nat → ImgResp) (delay i : Nat) (f : String)
    (rest : List String) (s : String) (hex : existing i = false)
    (he : eStr e = some s) (hs : (resp i).success = true)
    (hm : lengthMismatch (resp i) = false) :
    dlGo e existing resp delay i (f :: rest) =
      (DlEvent.httpGet i :: DlEvent.writePart i (resp i).bytes ::
        DlEvent.renameToFinal i ::
        DlEvent.sleepJitter (delay / 2) (delay * 3 / 2) ::
        (dlGo e existing resp delay (i + 1) rest).1,
        (dlGo e existing resp delay (i + 1) rest).2) := by
  simp [dlGo, hex, he, hs, hm]

theorem dlGo_sleep_shape (e : JsonVal) (existing : Nat → Bool)
    (resp : Nat → ImgResp) (delay : Nat) :
    ∀ (files : List String) (i : Nat),
      (∀ ev ∈ (dlGo e existing resp delay i files).1, isSleepEv ev = true →
          ev = DlEvent.sleepJitter (delay / 2) (delay * 3 / 2)) ∧
      (dlGo e existing resp delay i files).1.countP isSleepEv =
        (dlGo e existing resp delay i files).1.countP isRenameEv := by
  intro files
  induction files with
  | nil =>
    intro i
    refine ⟨?_, rfl⟩
    intro ev hev
    cases hev
  | cons f rest ih =>
    intro i
    obtain ⟨ih1, ih2⟩ := ih (i + 1)
    by_cases hex : existing i = true
    · rw [dlGo_skip e existing resp delay i f rest hex]
      constructor
      · intro ev hev hsl
        rcases List.mem_cons.mp hev with h | h
        · rw [h] at hsl
          cases hsl
        · exact ih1 ev h hsl
      · simp only [List.countP_cons]
        show _ + (if false = true then 1 else 0) =
          _ + (if false = true then 1 else 0)
        simp [ih2]
    · have hexf : existing i = false := by
        revert hex
        cases existing i <;> simp
      cases heS : eStr e with
      | none =>
        rw [dlGo_badE e existing resp delay i f rest hexf heS]
        refine ⟨?_, rfl⟩
        intro ev hev
        cases hev
      | some s =>
        by_cases hsucc : (resp i).success = false
        · rw [dlGo_httpFail e existing resp delay i f rest s hexf heS hsucc]
          refine ⟨?_, rfl⟩
          intro ev hev hsl
          rcases List.mem_cons.mp hev with h | h
          · rw [h] at hsl
            cases hsl
          · cases h
        · have hsucc' : (resp i).success = true := by
            revert hsucc
            cases (resp i).success <;> simp
          by_cases hmis : lengthMismatch (resp i) = true
          · rw [dlGo_mismatch e existing resp delay i f rest s hexf heS
              hsucc' hmis]
            refine ⟨?_, rfl⟩
            intro ev hev hsl
            rcases List.mem_cons.mp hev with h | h
            · rw [h] at hsl
              cases hsl
            · rcases List.mem_cons.mp h with h2 | h2
              · rw [h2] at hsl
                cases hsl
              · cases h2
          · have hmis' : lengthMismatch (resp i) = false := by
              revert hmis
              cases lengthMismatch (resp i) <;> simp
            rw [dlGo_success e existing resp delay i f rest s hexf heS
              hsucc' hmis']
            constructor
            · intro ev hev hsl
              rcases List.mem_cons.mp hev with h | h
              · rw [h] at hsl
                cases hsl
              · rcases List.mem_cons.mp h with h2 | h2
                · rw [h2] at hsl
                  cases hsl
                · rcases List.mem_cons.mp h2 with h3 | h3
                  · rw [h3] at hsl
                    cases hsl
                  · rcases List.mem_cons.mp h3 with h4 | h4
                    · exact h4
                    · exact ih1 ev h4 hsl
            · simp only [List.countP_cons]
              simp [isSleepEv, isRenameEv, ih2]

/-- C1, amended: in `download_images` a jittered sleep happens exactly
once per freshly downloaded file — every sleep in the trace draws from
the inclusive range `[delay/2, delay*3/2]`, and the number of sleeps
equals the number of `.part` -> final renames (i.e. of completed
downloads); skipped files contribute a `skipExisting` event and no
sleep.  (The original claim additionally asserted a sleep after
skipped files; `dl_skip_no_sleep_cex` refutes that.) -/
theorem dl_sleep_jitter_after_downloads (e : JsonVal) (files : List String)
    (existing : Nat → Bool) (resp : Nat → ImgResp) (delay : Nat) :
    (∀ ev ∈ (downloadImages e files existing resp delay).1,
        isSleepEv ev = true →
        ev = DlEvent.sleepJitter (delay / 2) (delay * 3 / 2)) ∧
      (downloadImages e files existing resp delay).1.countP isSleepEv =
        (downloadImages e files existing resp delay).1.countP isRenameEv :=
  dlGo_sleep_shape e existing resp delay files 0

/-- Witness for C1's amended theorem: a one-file run that downloads
(destination absent, HTTP success, no declared length) sleeps with the
jitter bounds `[1000/2, 1000*3/2]` nanoseconds. -/
theorem dl_sleep_jitter_after_downloads_witness :
    DlEvent.sleepJitter 500 1500 ∈
        (downloadImages (.str "1") ["a.jpg"] (fun _ => false)
          (fun _ => ⟨true, none, 5⟩) 1000).1 ∧
      DlEvent.sleepJitter 500 1500 =
        DlEvent.sleepJitter (1000 / 2) (1000 * 3 / 2) :=
  ⟨by decide,
    (dl_sleep_jitter_after_downloads (.str "1") ["a.jpg"] (fun _ => false)
        (fun _ => ⟨true, none, 5⟩) 1000).1
      (DlEvent.sleepJitter 500 1500) (by decide) (by decide)⟩

/-- C1 counterexample: a file whose destination already exists is
skipped with no sleep at all — the trace is exactly
`[skipExisting 0]` — refuting the claim that the program sleeps after
each file whether downloaded or skipped. -/
theorem dl_skip_no_sleep_cex :
    (downloadImages (.str "1") ["a.jpg"] (fun _ => true)
        (fun _ => ⟨true, none, 0⟩) 1000).1 = [DlEvent.skipExisting 0] ∧
      (downloadImages (.str "1") ["a.jpg"] (fun _ => true)
        (fun _ => ⟨true, none, 0⟩) 1000).1.countP isSleepEv = 0 := by
  exact ⟨rfl, rfl⟩

theorem dlGo_idx_ge (e : JsonVal) (existing : Nat → Bool)
    (resp : Nat → ImgResp) (delay : Nat) :
    ∀ (files : List String) (i : Nat) (ev : DlEvent),
      ev ∈ (dlGo e existing resp delay i files).1 →
      ∀ j, evIdx ev = some j → i ≤ j := by
  intro files
  induction files with
  | nil =>
    intro i ev hev
    cases hev
  | cons f rest ih =>
    intro i ev hev j hj
    by_cases hex : existing i = true
    · rw [dlGo_skip e existing resp delay i f rest hex] at hev
      rcases List.mem_cons.mp hev with h | h
      · rw [h] at hj
        cases hj
        omega
      · have := ih (i + 1) ev h j hj
        omega
    · have hexf : existing i = false := by
        revert hex
        cases existing i <;> simp
      cases heS : eStr e with
      | none =>
        rw [dlGo_badE e existing resp delay i f rest hexf heS] at hev
        cases hev
      | some s =>
        by_cases hsucc : (resp i).success = false
        · rw [dlGo_httpFail e existing resp delay i f rest s hexf heS
            hsucc] at hev
          rcases List.mem_cons.mp hev with h | h
          · rw [h] at hj
            cases hj
            omega
          · cases h
        · have hsucc' : (resp i).success = true := by
            revert hsucc
            cases (resp i).success <;> simp
          by_cases hmis : lengthMismatch (resp i) = true
          · rw [dlGo_mismatch e existing resp delay i f rest s hexf heS
              hsucc' hmis] at hev
            rcases List.mem_cons.mp hev with h | h
            · rw [h] at hj
              cases hj
              omega
            · rcases List.mem_cons.mp h with h2 | h2
              · rw [h2] at hj
                cases hj
                omega
              · cases h2
          · have hmis' : lengthMismatch (resp i) = false := by
              revert hmis
              cases lengthMismatch (resp i) <;> simp
            rw [dlGo_success e existing resp delay i f rest s hexf heS
              hsucc' hmis'] at hev
            rcases List.mem_cons.mp hev with h | h
            · rw [h] at hj
              cases hj
              omega
            · rcases List.mem_cons.mp h with h2 | h2
              · rw [h2] at hj
                cases hj
                omega
              · rcases List.mem_cons.mp h2 with h3 | h3
                · rw [h3] at hj
                  cases hj
                  omega
                · rcases List.mem_cons.mp h3 with h4 | h4
                  · rw [h4] at hj
                    cases hj
                  · have := ih (i + 1) ev h4 j hj
                    omega

theorem dlGo_rename_writes (e : JsonVal) (existing : Nat → Bool)
    (resp : Nat → ImgResp) (delay : Nat) :
    ∀ (files : List String) (i : Nat),
      (∀ j, DlEvent.renameToFinal j ∈ (dlGo e existing resp delay i files).1 →
          DlEvent.writePart j (resp j).bytes ∈
              (dlGo e existing resp delay i files).1 ∧
            lengthMismatch (resp j) = false) ∧
      (∀ j b, DlEvent.writePart j b ∈ (dlGo e existing resp delay i files).1 →
          lengthMismatch (resp j) = true →
          DlEvent.renameToFinal j ∉ (dlGo e existing resp delay i files).1 ∧
            (dlGo e existing resp delay i files).2 =
              some (incompleteMsgErr ((resp j).contentLength.getD 0)
                (resp j).bytes)) := by
  intro files
  induction files with
  | nil =>
    intro i
    constructor
    · intro j hj
      cases hj
    · intro j b hj
      cases hj
  | cons f rest ih =>
    intro i
    obtain ⟨ih1, ih2⟩ := ih (i + 1)
    by_cases hex : existing i = true
    · rw [dlGo_skip e existing resp delay i f rest hex]
      constructor
      · intro j hj
        rcases List.mem_cons.mp hj with h | h
        · cases h
        · obtain ⟨hw, hm⟩ := ih1 j h
          exact ⟨List.mem_cons_of_mem _ hw, hm⟩
      · intro j b hj hm
        rcases List.mem_cons.mp hj with h | h
        · cases h
        · obtain ⟨hnr, herr⟩ := ih2 j b h hm
          refine ⟨?_, herr⟩
          intro hmem
          rcases List.mem_cons.mp hmem with h2 | h2
          · cases h2
          · exact hnr h2
    · have hexf : existing i = false := by
        revert hex
        cases existing i <;> simp
      cases heS : eStr e with
      | none =>
        rw [dlGo_badE e existing resp delay i f rest hexf heS]
        constructor
        · intro j hj
          cases hj
        · intro j b hj
          cases hj
      | some s =>
        by_cases hsucc : (resp i).success = false
        · rw [dlGo_httpFail e existing resp delay i f rest s hexf heS hsucc]
          constructor
          · intro j hj
            rcases List.mem_cons.mp hj with h | h
            · cases h
            · cases h
          · intro j b hj
            rcases List.mem_cons.mp hj with h | h
            · cases h
            · cases h
        · have hsucc' : (resp i).success = true := by
            revert hsucc
            cases (resp i).success <;> simp
          by_cases hmis : lengthMismatch (resp i) = true
          · rw [dlGo_mismatch e existing resp delay i f rest s hexf heS
              hsucc' hmis]
            constructor
            · intro j hj
              rcases List.mem_cons.mp hj with h | h
              · cases h
              · rcases List.mem_cons.mp h with h2 | h2
                · cases h2
                · cases h2
            · intro j b hj hm
              rcases List.mem_cons.mp hj with h | h
              · cases h
              · rcases List.mem_cons.mp h with h2 | h2
                · cases h2
                  constructor
                  · intro hmem
                    rcases List.mem_cons.mp hmem with h3 | h3
                    · cases h3
                    · rcases List.mem_cons.mp h3 with h4 | h4
                      · cases h4
                      · cases h4
                  · rfl
                · cases h2
          · have hmis' : lengthMismatch (resp i) = false := by
              revert hmis
              cases lengthMismatch (resp i) <;> simp
            rw [dlGo_success e existing resp delay i f rest s hexf heS
              hsucc' hmis']
            constructor
            · intro j hj
              rcases List.mem_cons.mp hj with h | h
              · cases h
              · rcases List.mem_cons.mp h with h2 | h2
                · cases h2
                · rcases List.mem_cons.mp h2 with h3 | h3
                  · cases h3
                    refine ⟨?_, hmis'⟩
                    exact List.mem_cons_of_mem _ (List.mem_cons_self _ _)
                  · rcases List.mem_cons.mp h3 with h4 | h4
                    · cases h4
                    · obtain ⟨hw, hm⟩ := ih1 j h4
                      refine ⟨?_, hm⟩
                      exact List.mem_cons_of_mem _ (List.mem_cons_of_mem _
                        (List.mem_cons_of_mem _ (List.mem_cons_of_mem _ hw)))
            · intro j b hj hm
              rcases List.mem_cons.mp hj with h | h
              · cases h
              · rcases List.mem_cons.mp h with h2 | h2
                · cases h2
                  rw [hm] at hmis'
                  cases hmis'
                · rcases List.mem_cons.mp h2 with h3 | h3
                  · cases h3
                  · rcases List.mem_cons.mp h3 with h4 | h4
                    · cases h4
                    · obtain ⟨hnr, herr⟩ := ih2 j b h4 hm
                      have hjge : i + 1 ≤ j :=
                        dlGo_idx_ge e existing resp delay rest (i + 1)
                          (DlEvent.writePart j b) h4 j rfl
                      refine ⟨?_, herr⟩
                      intro hmem
                      rcases List.mem_cons.mp hmem with g | g
                      · cases g
                      · rcases List.mem_cons.mp g with g2 | g2
                        · cases g2
                        · rcases List.mem_cons.mp g2 with g3 | g3
                          · cases g3
                            omega
                          · rcases List.mem_cons.mp g3 with g4 | g4
                            · cases g4
                            · exact hnr g4

/-- C4: in `download_images` the body is written to the `.part`
sibling (`writePart`), and the `.part` -> final rename happens for
index `j` only if the byte count matched the declared content length
(or none was declared, `lengthMismatch = false`); conversely a written
`.part` whose byte count mismatches the declared length is never
renamed, and the run ends with the incomplete-transfer
`AppError::Io(UnexpectedEof)` error for exactly that file. -/
theorem dl_part_promoted_only_on_match (e : JsonVal) (files : List String)
    (existing : Nat → Bool) (resp : Nat → ImgResp) (delay : Nat) :
    (∀ j, DlEvent.renameToFinal j ∈
          (downloadImages e files existing resp delay).1 →
        DlEvent.writePart j (resp j).bytes ∈
            (downloadImages e files existing resp delay).1 ∧
          lengthMismatch (resp j) = false) ∧
      (∀ j b, DlEvent.writePart j b ∈
            (downloadImages e files existing resp delay).1 →
          lengthMismatch (resp j) = true →
          DlEvent.renameToFinal j ∉
              (downloadImages e files existing resp delay).1 ∧
            (downloadImages e files existing resp delay).2 =
              some (incompleteMsgErr ((resp j).contentLength.getD 0)
                (resp j).bytes)) :=
  dlGo_rename_writes e existing resp delay files 0

/-- Witness for C4: a one-file run whose response declares 10 bytes
but delivers 5 writes the `.part`, never renames, and aborts with the
incomplete-transfer error. -/
theorem dl_part_promoted_only_on_match_witness :
    DlEvent.writePart 0 5 ∈
        (downloadImages (.str "1") ["a.jpg"] (fun _ => false)
          (fun _ => ⟨true, some 10, 5⟩) 1000).1 ∧
      lengthMismatch ((fun _ => (⟨true, some 10, 5⟩ : ImgResp)) 0) = true ∧
      (DlEvent.renameToFinal 0 ∉
          (downloadImages (.str "1") ["a.jpg"] (fun _ => false)
            (fun _ => ⟨true, some 10, 5⟩) 1000).1 ∧
        (downloadImages (.str "1") ["a.jpg"] (fun _ => false)
          (fun _ => ⟨true, some 10, 5⟩) 1000).2 =
          some (incompleteMsgErr
            (((fun _ => (⟨true, some 10, 5⟩ : ImgResp)) 0).contentLength.getD 0)
            ((fun _ => (⟨true, some 10, 5⟩ : ImgResp)) 0).bytes)) :=
  ⟨by decide, by decide,
    (dl_part_promoted_only_on_match (.str "1") ["a.jpg"] (fun _ => false)
        (fun _ => ⟨true, some 10, 5⟩) 1000).2 0 5 (by decide) (by decide)⟩

end MhgDl
